import Mathlib

/-!
Shallow embedding of the CDC latest-state resolution utilities of
`src/tools/utils.py` (functions `dedup_by`, `normalize_cdc_latest`,
`normalize_ascii_lower`), together with proofs settling the frozen claims
about them.

Modelling choices, all taken from the source:
* A DataFrame is a `List Row`; a `Row` is an association list of column
  name to `Val` (an untyped SQL value: null, integer — also standing for
  timestamps, which are totally ordered — or string).
* `F.col(c).desc_nulls_last()` is the descending, nulls-last comparison
  `cmpVal` on the values of column `c`; the window order is the
  lexicographic `cmpRows` over the ordered column list.
* `row_number().over(Window.partitionBy(key).orderBy(...))` assigns to a
  row one plus the number of partition rows strictly preceding it in the
  order plus the number of order-ties preceding it in input order: Spark
  leaves the relative order of ties unspecified, and the embedding fixes
  it as input order (a stable realization), which is the determinization
  the determinism claims are judged against.
* The source line `[F.col(c).desc_null_lasts() for c in tiebreakers]`
  invokes a method that does not exist on `Column`
  (`desc_nulls_last` is the real name), so every call with a non-empty
  tiebreaker list raises `AttributeError`; the embedding returns `none`
  in that case and `some` of the resolved rows otherwise.
* Referencing a column a row does not carry is modelled as the null
  value; the claims under proof only exercise batches carrying their
  declared columns (schema mismatch handling is out of scope).
-/

inductive Val where
  | null : Val
  | int : Int → Val
  | str : String → Val
deriving DecidableEq

abbrev Row := List (String × Val)

/-- Value of column `c` in row `r`; null when the column is absent. -/
def getVal (r : Row) (c : String) : Val :=
  (((r.find? (fun p => decide (p.1 = c))).map (fun p => p.2)).getD Val.null)

/-- `df.withColumn(c, v)` on one row: replace the column in place when it
exists, append it otherwise (Spark semantics). -/
def withColumn (r : Row) (c : String) (v : Val) : Row :=
  if r.any (fun p => decide (p.1 = c)) then
    r.map (fun p => if p.1 = c then (c, v) else p)
  else
    r ++ [(c, v)]

/-- `df.drop(c)` on one row. -/
def dropColumn (r : Row) (c : String) : Row :=
  r.filter (fun p => !(decide (p.1 = c)))

/-- `F.col(c).desc_nulls_last()` comparison on two values of the column:
`.lt` means the first value sorts strictly before the second, i.e. it
outranks it. Larger values sort first (descending); a null sorts after
any non-null value. -/
def cmpVal : Val → Val → Ordering
  | Val.null, Val.null => Ordering.eq
  | Val.null, _ => Ordering.gt
  | _, Val.null => Ordering.lt
  | Val.int i, Val.int j =>
      if j < i then Ordering.lt else if i < j then Ordering.gt else Ordering.eq
  | Val.str s, Val.str t =>
      if t < s then Ordering.lt else if s < t then Ordering.gt else Ordering.eq
  | Val.int _, Val.str _ => Ordering.lt
  | Val.str _, Val.int _ => Ordering.gt

/-- Lexicographic window order over the ordered column list, each column
descending nulls-last. -/
def cmpRows (cols : List String) (r s : Row) : Ordering :=
  match cols with
  | [] => Ordering.eq
  | c :: cs =>
    match cmpVal (getVal r c) (getVal s c) with
    | Ordering.eq => cmpRows cs r s
    | o => o

/-- `df.dropDuplicates(cols)` keeping the first occurrence of each
projection class; `seen` accumulates the projections already emitted. -/
def dropDupAcc {α β : Type} [DecidableEq β] (f : α → β) (seen : List β) : List α → List α
  | [] => []
  | x :: xs =>
    if f x ∈ seen then dropDupAcc f seen xs
    else x :: dropDupAcc f (f x :: seen) xs

def dropDuplicates {α β : Type} [DecidableEq β] (f : α → β) (l : List α) : List α :=
  dropDupAcc f [] l

/-- `dedup_by(spark, df, *keys)`: whole-row deduplication when no keys are
given (the default, `df.dropDuplicates(df.columns)` — every row of a
DataFrame carries the schema's columns, so projecting on all columns is
row equality), key-projection deduplication otherwise. -/
def dedup_by (keys : List String) (rows : List Row) : List Row :=
  if keys.isEmpty then dropDuplicates (fun r => r) rows
  else dropDuplicates (fun r => keys.map (fun c => getVal r c)) rows

/-- The rows of `base` in the window partition of row `r`
(`Window.partitionBy(key_col)`). -/
def partitionOf (key_col : String) (base : List Row) (r : Row) : List Row :=
  base.filter (fun s => decide (getVal s key_col = getVal r key_col))

/-- Number of order-ties of `r` occurring strictly before the first
occurrence of `r` in the partition list. -/
def tiesBefore (cols : List String) (r : Row) : List Row → Nat
  | [] => 0
  | s :: rest =>
    if s = r then 0
    else (if cmpRows cols s r = Ordering.eq then 1 else 0) + tiesBefore cols r rest

/-- `F.row_number().over(Window.partitionBy(key_col).orderBy(cols desc
nulls last))` for row `r`: one plus the strict predecessors of `r` in the
order plus the tied rows preceding `r` in input order. -/
def rowNumber (key_col : String) (cols : List String) (base : List Row) (r : Row) : Nat :=
  let part := partitionOf key_col base r
  1 + part.countP (fun s => decide (cmpRows cols s r = Ordering.lt))
    + tiesBefore cols r part

/-- `normalize_cdc_latest(spark, df, key_col, seq_col, ts_col,
tiebreakers)`: whole-row dedup, rank over the window partitioned by
`key_col` ordered by `seq_col` desc nulls-last then `ts_col` desc
nulls-last then the tiebreakers, keep the rank-1 row per key, drop the
rank column. A non-empty tiebreaker list makes the source raise
`AttributeError` (`desc_null_lasts` is not a `Column` method), modelled
as `none`. -/
def normalize_cdc_latest (rows : List Row) (key_col : String)
    (seq_col : String := "seq_num") (ts_col : String := "event_time")
    (tiebreakers : Option (List String) := none) : Option (List Row) :=
  let tbs := tiebreakers.getD []
  let base := dedup_by [] rows
  if tbs.isEmpty then
    let cols := [seq_col, ts_col] ++ tbs
    let ranked := base.map (fun r => withColumn r "_rn" (Val.int (rowNumber key_col cols base r)))
    some ((ranked.filter (fun r => decide (getVal r "_rn" = Val.int 1))).map
      (fun r => dropColumn r "_rn"))
  else
    none

/-- The shape a rank-1 row takes in the returned DataFrame: the rank
column is attached (with value 1) and dropped again. -/
def emittedRow (r : Row) : Row :=
  dropColumn (withColumn r "_rn" (Val.int 1)) "_rn"

/-- Left-to-right scan keeping the current best row of a partition under
the window order; ties keep the earlier row, matching the stable
realization of `row_number`. -/
def bestGo (cmp : Row → Row → Ordering) (b : Row) : List Row → Row
  | [] => b
  | s :: rest => bestGo cmp (if cmp s b = Ordering.lt then s else b) rest

/-- Absence of distinct same-key rows tied on every ordering column: the
situation in which the source's comparator (which has no final fallback
criterion) leaves the winner to the engine's row order. -/
def NoOrderTies (key_col : String) (cols : List String) (l : List Row) : Prop :=
  ∀ r ∈ l, ∀ s ∈ l,
    getVal r key_col = getVal s key_col → cmpRows cols r s = Ordering.eq → r = s

/-- Spark's `trim`: strips leading and trailing space characters
(U+0020) only — not tabs, carriage returns or newlines. -/
def trimSpacesList (cs : List Char) : List Char :=
  ((cs.dropWhile (fun c => c == ' ')).reverse.dropWhile (fun c => c == ' ')).reverse

/-- Spark's `lower`: Unicode simple lowercasing, modelled on the ASCII
letters and the Latin-1 accented letters this utility concerns; all
other characters are untouched. -/
def lowerChar (c : Char) : Char :=
  if 'A' ≤ c ∧ c ≤ 'Z' then Char.ofNat (c.toNat + 32)
  else if c = 'Á' then 'á'
  else if c = 'É' then 'é'
  else if c = 'Í' then 'í'
  else if c = 'Ó' then 'ó'
  else if c = 'Ú' then 'ú'
  else if c = 'Ü' then 'ü'
  else if c = 'Ñ' then 'ñ'
  else c

/-- First position of `c` in a character list, for `translate`'s source
string lookup. -/
def findPos (c : Char) : List Char → Option Nat
  | [] => none
  | x :: rest => if c == x then some 0 else (findPos c rest).map (fun i => i + 1)

/-- Spark's `translate(col, src, dst)` on a character list: a character
found at position `i` of `src` is replaced by `dst[i]` (deleted when
`dst` is shorter); other characters pass through. -/
def translateList (src dst : List Char) (cs : List Char) : List Char :=
  cs.filterMap (fun c =>
    match findPos c src with
    | none => some c
    | some i => dst.get? i)

/-- `normalize_ascii_lower(col)` =
`F.translate(F.lower(F.trim(col)), "áéíóúüñ", "aeiouun")`. -/
def normalize_ascii_lower (s : String) : String :=
  String.mk (translateList "áéíóúüñ".toList "aeiouun".toList
    ((trimSpacesList s.toList).map lowerChar))

/-- Claim C8's static accent map, spec formulation: a direct
character-to-character association list. -/
def accentFoldMap : List (Char × Char) :=
  [('á', 'a'), ('é', 'e'), ('í', 'i'), ('ó', 'o'), ('ú', 'u'), ('ü', 'u'), ('ñ', 'n')]

def foldAccentChar (c : Char) : Char :=
  (((accentFoldMap.find? (fun p => c == p.1)).map (fun p => p.2)).getD c)

/-- Modelled from the spec: the text normalizer as claim C8 states it —
leading and trailing *whitespace* trimmed, then lowercased, then the
static accent map applied. -/
def normalize_text_claimed (s : String) : String :=
  String.mk
    ((((s.toList.dropWhile Char.isWhitespace).reverse.dropWhile Char.isWhitespace).reverse.map
      lowerChar).map foldAccentChar)

/-- The amended spec-side normalizer: identical to the claim except that
only space characters are trimmed, as Spark's `trim` does. -/
def normalize_text_amended (s : String) : String :=
  String.mk (((trimSpacesList s.toList).map lowerChar).map foldAccentChar)

/-! Concrete scenario rows used by witnesses and counterexamples. -/

/-- Two distinct rows agreeing on key and every ordering column. -/
def tieRow1 : Row :=
  [("id", Val.int 1), ("seq_num", Val.int 1), ("event_time", Val.int 1), ("amount", Val.int 10)]

def tieRow2 : Row :=
  [("id", Val.int 1), ("seq_num", Val.int 1), ("event_time", Val.int 1), ("amount", Val.int 20)]

/-- Delete-retention scenario for key `K2`. -/
def insRow : Row :=
  [("id", Val.str "K2"), ("op", Val.str "I"), ("seq_num", Val.int 1), ("event_time", Val.int 0)]

def delRow : Row :=
  [("id", Val.str "K2"), ("op", Val.str "D"), ("seq_num", Val.int 2), ("event_time", Val.int 0)]

/-- Null-last scenario for key `K1`: event A has a null `seq_num` and the
later `event_time`, event B has `seq_num = 1` and the earlier time. -/
def nullSeqRow : Row :=
  [("id", Val.str "K1"), ("seq_num", Val.null), ("event_time", Val.int 5)]

def seqOneRow : Row :=
  [("id", Val.str "K1"), ("seq_num", Val.int 1), ("event_time", Val.int 0)]

/-- An input row that already carries a `_rn` column. -/
def rnRow : Row :=
  [("id", Val.int 1), ("_rn", Val.int 5), ("seq_num", Val.int 1), ("event_time", Val.int 0)]

/-- A row with a populated tiebreaker column `vip`. -/
def plainRow : Row :=
  [("id", Val.int 1), ("seq_num", Val.int 1), ("event_time", Val.int 0), ("vip", Val.int 9)]

/-! Order lemmas for the descending nulls-last comparators -/

theorem cmpVal_self (v : Val) : cmpVal v v = Ordering.eq := by
  cases v <;> simp [cmpVal]

theorem cmpVal_eq_iff {a b : Val} : cmpVal a b = Ordering.eq ↔ a = b := by
  cases a <;> cases b <;> simp [cmpVal]
  case int.int i j => omega
  case str.str s t =>
    constructor
    · intro h
      exact congrArg String.mk (le_antisymm h.1 h.2)
    · intro h
      subst h
      exact ⟨le_refl _, le_refl _⟩

theorem cmpVal_gt_iff {a b : Val} : cmpVal a b = Ordering.gt ↔ cmpVal b a = Ordering.lt := by
  cases a <;> cases b <;> simp [cmpVal]
  case int.int i j => omega
  case str.str s t => exact fun h => le_of_lt h

theorem cmpVal_lt_trans {a b c : Val} (h1 : cmpVal a b = Ordering.lt)
    (h2 : cmpVal b c = Ordering.lt) : cmpVal a c = Ordering.lt := by
  cases a <;> cases b <;> cases c <;> simp_all [cmpVal]
  case int.int.int i j l => omega
  case str.str.str s t u => exact lt_trans h2 h1

theorem cmpRows_self (cols : List String) (r : Row) : cmpRows cols r r = Ordering.eq := by
  induction cols with
  | nil => rfl
  | cons c cs ih => simp [cmpRows, cmpVal_self, ih]

theorem cmpRows_gt_iff {cols : List String} {r s : Row} :
    cmpRows cols r s = Ordering.gt ↔ cmpRows cols s r = Ordering.lt := by
  induction cols with
  | nil => simp [cmpRows]
  | cons c cs ih =>
    simp only [cmpRows]
    cases o : cmpVal (getVal r c) (getVal s c)
    · have o' : cmpVal (getVal s c) (getVal r c) = Ordering.gt := cmpVal_gt_iff.mpr o
      rw [o']
      simp
    · have := cmpVal_eq_iff.mp o
      rw [this, cmpVal_self]
      exact ih
    · have o' : cmpVal (getVal s c) (getVal r c) = Ordering.lt := cmpVal_gt_iff.mp o
      rw [o']
      simp

theorem cmpRows_eq_symm {cols : List String} {r s : Row}
    (h : cmpRows cols r s = Ordering.eq) : cmpRows cols s r = Ordering.eq := by
  cases o : cmpRows cols s r
  · have := cmpRows_gt_iff.mpr o
    rw [this] at h; cases h
  · rfl
  · have := cmpRows_gt_iff.mp o
    rw [this] at h; cases h

theorem cmpRows_eq_getVal {cols : List String} {r s : Row}
    (h : cmpRows cols r s = Ordering.eq) : ∀ c ∈ cols, getVal r c = getVal s c := by
  induction cols with
  | nil => intro c hc; cases hc
  | cons c0 cs ih =>
    intro c hc
    rw [cmpRows] at h
    cases o : cmpVal (getVal r c0) (getVal s c0) <;> rw [o] at h
    · cases h
    · rcases List.mem_cons.mp hc with hc | hc
      · subst hc; exact cmpVal_eq_iff.mp o
      · exact ih h c hc
    · cases h

theorem cmpRows_congr_left {cols : List String} {a b : Row}
    (h : cmpRows cols a b = Ordering.eq) (c : Row) :
    cmpRows cols a c = cmpRows cols b c := by
  induction cols with
  | nil => rfl
  | cons c0 cs ih =>
    rw [cmpRows] at h
    cases o : cmpVal (getVal a c0) (getVal b c0) <;> rw [o] at h
    · cases h
    · have hv := cmpVal_eq_iff.mp o
      simp only [cmpRows, hv]
      cases o2 : cmpVal (getVal b c0) (getVal c c0)
      · rfl
      · exact ih h
      · rfl
    · cases h

theorem cmpRows_congr_right {cols : List String} {b c : Row}
    (h : cmpRows cols b c = Ordering.eq) (a : Row) :
    cmpRows cols a b = cmpRows cols a c := by
  induction cols with
  | nil => rfl
  | cons c0 cs ih =>
    rw [cmpRows] at h
    cases o : cmpVal (getVal b c0) (getVal c c0) <;> rw [o] at h
    · cases h
    · have hv := cmpVal_eq_iff.mp o
      simp only [cmpRows, hv]
      cases o2 : cmpVal (getVal a c0) (getVal c c0)
      · rfl
      · exact ih h
      · rfl
    · cases h

theorem cmpRows_lt_trans {cols : List String} {a b c : Row}
    (h1 : cmpRows cols a b = Ordering.lt) (h2 : cmpRows cols b c = Ordering.lt) :
    cmpRows cols a c = Ordering.lt := by
  induction cols with
  | nil => cases h1
  | cons c0 cs ih =>
    rw [cmpRows] at h1 h2 ⊢
    cases o1 : cmpVal (getVal a c0) (getVal b c0) <;> rw [o1] at h1 <;>
      cases o2 : cmpVal (getVal b c0) (getVal c c0) <;> rw [o2] at h2
    · rw [cmpVal_lt_trans o1 o2]
    · rw [cmpVal_eq_iff.mp o2] at o1
      rw [o1]
    · cases h2
    · rw [← cmpVal_eq_iff.mp o1] at o2
      rw [o2]
    · rw [cmpVal_eq_iff.mp o1, o2]
      exact ih h1 h2
    · cases h2
    · cases h1
    · cases h1
    · cases h1

/-! Row access lemmas -/

theorem getVal_nil (c : String) : getVal [] c = Val.null := rfl

theorem getVal_cons (p : String × Val) (r : Row) (c : String) :
    getVal (p :: r) c = if p.1 = c then p.2 else getVal r c := by
  by_cases h : p.1 = c <;> simp [getVal, List.find?, h]

theorem getVal_mapReplace_self (r : Row) (c : String) (v : Val)
    (h : r.any (fun p => decide (p.1 = c)) = true) :
    getVal (r.map (fun p => if p.1 = c then (c, v) else p)) c = v := by
  induction r with
  | nil => cases h
  | cons p r ih =>
    by_cases hp : p.1 = c
    · simp [getVal_cons, hp]
    · have h' : r.any (fun p => decide (p.1 = c)) = true := by simpa [hp] using h
      simp [getVal_cons, hp, ih h']

theorem getVal_mapReplace_ne (r : Row) (c : String) (v : Val) (c' : String)
    (h : ¬(c' = c)) :
    getVal (r.map (fun p => if p.1 = c then (c, v) else p)) c' = getVal r c' := by
  have hcc : ¬(c = c') := fun hc => h hc.symm
  induction r with
  | nil => rfl
  | cons p r ih =>
    by_cases hp : p.1 = c
    · have hpc' : ¬(p.1 = c') := by rw [hp]; exact hcc
      simp [getVal_cons, hp, hcc, hpc', ih]
    · by_cases hq : p.1 = c' <;> simp [getVal_cons, hp, hq, h, ih]

theorem getVal_append_single_self (r : Row) (c : String) (v : Val)
    (h : r.any (fun p => decide (p.1 = c)) = false) :
    getVal (r ++ [(c, v)]) c = v := by
  induction r with
  | nil => simp [getVal_cons]
  | cons p r ih =>
    simp only [List.any_cons, Bool.or_eq_false_iff, decide_eq_false_iff_not] at h
    simp [getVal_cons, h.1, ih (by simpa using h.2)]

theorem getVal_append_single_ne (r : Row) (c : String) (v : Val) (c' : String)
    (h : ¬(c' = c)) : getVal (r ++ [(c, v)]) c' = getVal r c' := by
  have hcc : ¬(c = c') := fun hc => h hc.symm
  induction r with
  | nil => simp [getVal_cons, getVal_nil, hcc]
  | cons p r ih =>
    by_cases hq : p.1 = c' <;> simp [getVal_cons, hq, ih]

theorem getVal_withColumn_self (r : Row) (c : String) (v : Val) :
    getVal (withColumn r c v) c = v := by
  unfold withColumn
  by_cases h : r.any (fun p => decide (p.1 = c))
  · rw [if_pos h]
    exact getVal_mapReplace_self r c v h
  · rw [if_neg h]
    exact getVal_append_single_self r c v (Bool.eq_false_iff.mpr h)

theorem getVal_withColumn_ne (r : Row) (c : String) (v : Val) (c' : String)
    (h : ¬(c' = c)) : getVal (withColumn r c v) c' = getVal r c' := by
  unfold withColumn
  by_cases hany : r.any (fun p => decide (p.1 = c))
  · rw [if_pos hany]
    exact getVal_mapReplace_ne r c v c' h
  · rw [if_neg hany]
    exact getVal_append_single_ne r c v c' h

theorem getVal_dropColumn_ne (r : Row) (c c' : String) (h : ¬(c' = c)) :
    getVal (dropColumn r c) c' = getVal r c' := by
  have hcc : ¬(c = c') := fun hc => h hc.symm
  induction r with
  | nil => rfl
  | cons p r ih =>
    unfold dropColumn at ih ⊢
    by_cases hp : p.1 = c
    · have hpc' : ¬(p.1 = c') := by
        rw [hp]
        exact hcc
      simp [List.filter_cons, hp, getVal_cons, hpc', hcc, ih]
    · by_cases hq : p.1 = c' <;> simp [List.filter_cons, hp, getVal_cons, hq, h, ih]

theorem getVal_emittedRow (r : Row) (c : String) (h : ¬(c = "_rn")) :
    getVal (emittedRow r) c = getVal r c := by
  unfold emittedRow
  rw [getVal_dropColumn_ne _ _ _ h, getVal_withColumn_ne _ _ _ _ h]

theorem dropColumn_withColumn (r : Row) (c : String) (v : Val)
    (h : ∀ p ∈ r, ¬(p.1 = c)) : dropColumn (withColumn r c v) c = r := by
  have hany : r.any (fun p => decide (p.1 = c)) = false := by
    simp only [List.any_eq_false, decide_eq_true_eq]
    exact h
  unfold withColumn
  rw [if_neg (by simp [hany])]
  unfold dropColumn
  rw [List.filter_append]
  have h1 : r.filter (fun p => !(decide (p.1 = c))) = r :=
    List.filter_eq_self.mpr (fun p hp => by simpa using h p hp)
  have h2 : ([((c, v) : String × Val)].filter (fun p => !(decide (p.1 = c)))) = [] := by simp
  rw [h1, h2, List.append_nil]

theorem emittedRow_eq_self (r : Row) (h : ∀ p ∈ r, ¬(p.1 = "_rn")) :
    emittedRow r = r :=
  dropColumn_withColumn r "_rn" (Val.int 1) h

/-! Deduplication lemmas -/

theorem mem_dropDupAcc_id {α : Type} [DecidableEq α] (seen : List α) (l : List α) (x : α) :
    x ∈ dropDupAcc (fun a => a) seen l ↔ x ∈ l ∧ x ∉ seen := by
  induction l generalizing seen with
  | nil => simp [dropDupAcc]
  | cons y ys ih =>
    simp only [dropDupAcc]
    by_cases hy : y ∈ seen
    · rw [if_pos hy, ih]
      constructor
      · rintro ⟨hxy, hxs⟩
        exact ⟨List.mem_cons_of_mem y hxy, hxs⟩
      · rintro ⟨hmem, hxs⟩
        rcases List.mem_cons.mp hmem with rfl | hmem
        · exact absurd hy hxs
        · exact ⟨hmem, hxs⟩
    · rw [if_neg hy]
      by_cases hxy : x = y
      · subst hxy
        simp [hy]
      · simp only [List.mem_cons, hxy, false_or, ih, List.mem_cons, not_or]

theorem nodup_dropDupAcc_id {α : Type} [DecidableEq α] (seen : List α) (l : List α) :
    (dropDupAcc (fun a => a) seen l).Nodup := by
  induction l generalizing seen with
  | nil => exact List.nodup_nil
  | cons y ys ih =>
    simp only [dropDupAcc]
    by_cases hy : y ∈ seen
    · rw [if_pos hy]
      exact ih seen
    · rw [if_neg hy]
      refine List.Nodup.cons ?_ (ih (y :: seen))
      intro hmem
      exact ((mem_dropDupAcc_id (y :: seen) ys y).mp hmem).2 (List.mem_cons_self y seen)

theorem dropDupAcc_id_eq_self {α : Type} [DecidableEq α] {seen l : List α}
    (h1 : l.Nodup) (h2 : ∀ x ∈ l, x ∉ seen) :
    dropDupAcc (fun a => a) seen l = l := by
  induction l generalizing seen with
  | nil => rfl
  | cons y ys ih =>
    simp only [dropDupAcc]
    rw [if_neg (h2 y (List.mem_cons_self y ys))]
    congr 1
    refine ih (List.Nodup.of_cons h1) ?_
    intro x hx
    simp only [List.mem_cons, not_or]
    exact ⟨fun hxy => (List.nodup_cons.mp h1).1 (hxy ▸ hx), h2 x (List.mem_cons_of_mem y hx)⟩

theorem dropDupAcc_id_all_seen {α : Type} [DecidableEq α] {seen d : List α}
    (h : ∀ x ∈ d, x ∈ seen) : dropDupAcc (fun a => a) seen d = [] := by
  induction d with
  | nil => rfl
  | cons y ys ih =>
    simp only [dropDupAcc]
    rw [if_pos (h y (List.mem_cons_self y ys))]
    exact ih (fun x hx => h x (List.mem_cons_of_mem y hx))

theorem dropDupAcc_id_append {α : Type} [DecidableEq α] (seen l d : List α)
    (h : ∀ x ∈ d, x ∈ l ∨ x ∈ seen) :
    dropDupAcc (fun a => a) seen (l ++ d) = dropDupAcc (fun a => a) seen l := by
  induction l generalizing seen with
  | nil =>
    simp only [List.nil_append, dropDupAcc]
    exact dropDupAcc_id_all_seen (fun x hx => (h x hx).resolve_left (fun hc => (List.not_mem_nil x) hc))
  | cons y ys ih =>
    simp only [List.cons_append, dropDupAcc]
    by_cases hy : y ∈ seen
    · rw [if_pos hy, if_pos hy]
      refine ih seen ?_
      intro x hx
      rcases h x hx with hmem | hmem
      · rcases List.mem_cons.mp hmem with rfl | hmem
        · exact Or.inr hy
        · exact Or.inl hmem
      · exact Or.inr hmem
    · rw [if_neg hy, if_neg hy]
      congr 1
      refine ih (y :: seen) ?_
      intro x hx
      rcases h x hx with hmem | hmem
      · rcases List.mem_cons.mp hmem with rfl | hmem
        · exact Or.inr (List.mem_cons_self x seen)
        · exact Or.inl hmem
      · exact Or.inr (List.mem_cons_of_mem y hmem)

theorem mem_dedup_nil (rows : List Row) (x : Row) :
    x ∈ dedup_by [] rows ↔ x ∈ rows := by
  unfold dedup_by dropDuplicates
  rw [if_pos (by rfl)]
  rw [mem_dropDupAcc_id]
  simp

theorem nodup_dedup_nil (rows : List Row) : (dedup_by [] rows).Nodup := by
  unfold dedup_by dropDuplicates
  rw [if_pos (by rfl)]
  exact nodup_dropDupAcc_id [] rows

theorem dedup_nil_idem (rows : List Row) :
    dedup_by [] (dedup_by [] rows) = dedup_by [] rows := by
  unfold dedup_by dropDuplicates
  rw [if_pos (by rfl), if_pos (by rfl)]
  exact dropDupAcc_id_eq_self (nodup_dropDupAcc_id [] rows) (by simp)

theorem dedup_nil_append (rows extra : List Row) (h : ∀ x ∈ extra, x ∈ rows) :
    dedup_by [] (rows ++ extra) = dedup_by [] rows := by
  unfold dedup_by dropDuplicates
  rw [if_pos (by rfl), if_pos (by rfl)]
  exact dropDupAcc_id_append [] rows extra (fun x hx => Or.inl (h x hx))

/-! Window rank lemmas -/

theorem mem_partitionOf {k : String} {base : List Row} {r s : Row} :
    s ∈ partitionOf k base r ↔ s ∈ base ∧ getVal s k = getVal r k := by
  simp [partitionOf]

theorem partitionOf_congr {k : String} {base : List Row} {r r' : Row}
    (h : getVal r k = getVal r' k) :
    partitionOf k base r = partitionOf k base r' := by
  unfold partitionOf
  apply List.filter_congr
  intro s _
  rw [h]

theorem tiesBefore_eq_zero {cols : List String} {r : Row} {l : List Row}
    (h : ∀ s ∈ l, ¬(s = r) → ¬(cmpRows cols s r = Ordering.eq)) :
    tiesBefore cols r l = 0 := by
  induction l with
  | nil => rfl
  | cons s rest ih =>
    unfold tiesBefore
    by_cases hs : s = r
    · rw [if_pos hs]
    · rw [if_neg hs, if_neg (h s (List.mem_cons_self s rest) hs)]
      simpa using ih (fun t ht => h t (List.mem_cons_of_mem s ht))

theorem tiesBefore_append_gt {cols : List String} {w : Row} (l1 l2 : List Row)
    (h : ∀ s ∈ l1, cmpRows cols s w = Ordering.gt) :
    tiesBefore cols w (l1 ++ w :: l2) = 0 := by
  induction l1 with
  | nil =>
    simp [tiesBefore]
  | cons s rest ih =>
    have hsw : ¬(s = w) := by
      intro he
      have := h s (List.mem_cons_self s rest)
      rw [he, cmpRows_self] at this
      cases this
    rw [List.cons_append]
    unfold tiesBefore
    rw [if_neg hsw, if_neg (by rw [h s (List.mem_cons_self s rest)]; intro hc; cases hc)]
    simpa using ih (fun t ht => h t (List.mem_cons_of_mem s ht))

theorem rowNumber_parts {k : String} {cols : List String} {base : List Row} {r : Row} :
    rowNumber k cols base r =
      1 + (partitionOf k base r).countP (fun s => decide (cmpRows cols s r = Ordering.lt))
        + tiesBefore cols r (partitionOf k base r) := rfl

theorem rank_one_no_lt {k : String} {cols : List String} {base : List Row} {r : Row}
    (h1 : rowNumber k cols base r = 1) :
    ∀ s ∈ partitionOf k base r, ¬(cmpRows cols s r = Ordering.lt) := by
  rw [rowNumber_parts] at h1
  have hc : (partitionOf k base r).countP
      (fun s => decide (cmpRows cols s r = Ordering.lt)) = 0 := by omega
  rw [List.countP_eq_zero] at hc
  intro s hs
  simpa using hc s hs

theorem rank_one_of_max {k : String} {cols : List String} {base : List Row} {r : Row}
    (hnt : ∀ s ∈ base, getVal s k = getVal r k → cmpRows cols s r = Ordering.eq → s = r)
    (hmax : ∀ s ∈ partitionOf k base r, ¬(cmpRows cols s r = Ordering.lt)) :
    rowNumber k cols base r = 1 := by
  rw [rowNumber_parts]
  have hc : (partitionOf k base r).countP
      (fun s => decide (cmpRows cols s r = Ordering.lt)) = 0 :=
    List.countP_eq_zero.mpr (fun s hs => by simpa using hmax s hs)
  have ht : tiesBefore cols r (partitionOf k base r) = 0 := by
    refine tiesBefore_eq_zero ?_
    intro s hs hne heq
    rcases mem_partitionOf.mp hs with ⟨hsb, hsk⟩
    exact hne (hnt s hsb hsk heq)
  omega

theorem tiesBefore_both_zero {cols : List String} {r r' : Row}
    (hne : ¬(r = r')) (he : cmpRows cols r r' = Ordering.eq) :
    ∀ l : List Row, r ∈ l → r' ∈ l →
      tiesBefore cols r l = 0 → tiesBefore cols r' l = 0 → False := by
  intro l
  induction l with
  | nil => intro h; cases h
  | cons s rest ih =>
    intro hr hr' h1 h2
    by_cases hsr : s = r
    · subst hsr
      unfold tiesBefore at h2
      rw [if_neg (fun hc => hne hc), if_pos he] at h2
      omega
    · by_cases hsr' : s = r'
      · subst hsr'
        unfold tiesBefore at h1
        rw [if_neg (fun hc => hne hc.symm), if_pos (cmpRows_eq_symm he)] at h1
        omega
      · unfold tiesBefore at h1 h2
        rw [if_neg hsr] at h1
        rw [if_neg hsr'] at h2
        exact ih (List.mem_of_ne_of_mem (fun hc => hsr hc.symm) hr)
          (List.mem_of_ne_of_mem (fun hc => hsr' hc.symm) hr')
          (by omega) (by omega)

theorem rank_one_unique {k : String} {cols : List String} {base : List Row} {r r' : Row}
    (hr : r ∈ base) (hr' : r' ∈ base) (hk : getVal r k = getVal r' k)
    (h1 : rowNumber k cols base r = 1) (h1' : rowNumber k cols base r' = 1) :
    r = r' := by
  by_contra hne
  have hpc : partitionOf k base r' = partitionOf k base r := partitionOf_congr hk.symm
  have hrp : r ∈ partitionOf k base r := mem_partitionOf.mpr ⟨hr, rfl⟩
  have hrp' : r' ∈ partitionOf k base r := mem_partitionOf.mpr ⟨hr', hk.symm⟩
  have hnl : ¬(cmpRows cols r' r = Ordering.lt) := rank_one_no_lt h1 r' hrp'
  have hnl' : ¬(cmpRows cols r r' = Ordering.lt) := by
    have := rank_one_no_lt h1' r (by rw [hpc]; exact hrp)
    exact this
  have heq : cmpRows cols r r' = Ordering.eq := by
    cases o : cmpRows cols r r'
    · exact absurd o hnl'
    · rfl
    · exact absurd (cmpRows_gt_iff.mp o) hnl
  have ht1 : tiesBefore cols r (partitionOf k base r) = 0 := by
    have := h1
    rw [rowNumber_parts] at this
    omega
  have ht2 : tiesBefore cols r' (partitionOf k base r) = 0 := by
    have := h1'
    rw [rowNumber_parts, hpc] at this
    omega
  exact tiesBefore_both_zero hne heq (partitionOf k base r) hrp hrp' ht1 ht2

/-! Existence of a rank-1 row per partition -/

theorem bestGo_spec (cols : List String) (l : List Row) : ∀ b : Row,
    ∃ l1 l2, b :: l = l1 ++ (bestGo (cmpRows cols) b l) :: l2
      ∧ (∀ s ∈ l1, cmpRows cols s (bestGo (cmpRows cols) b l) = Ordering.gt)
      ∧ (∀ s ∈ b :: l, ¬(cmpRows cols s (bestGo (cmpRows cols) b l) = Ordering.lt)) := by
  induction l with
  | nil =>
    intro b
    refine ⟨[], [], rfl, ?_, ?_⟩
    · intro s hs
      cases hs
    · intro s hs
      rcases List.mem_cons.mp hs with rfl | hs
      · rw [show bestGo (cmpRows cols) s [] = s from rfl, cmpRows_self]
        intro hc; cases hc
      · cases hs
  | cons s rest ih =>
    intro b
    have hstep : bestGo (cmpRows cols) b (s :: rest)
        = bestGo (cmpRows cols) (if cmpRows cols s b = Ordering.lt then s else b) rest := rfl
    by_cases hsb : cmpRows cols s b = Ordering.lt
    · have hred : bestGo (cmpRows cols) b (s :: rest) = bestGo (cmpRows cols) s rest := by
        rw [hstep, if_pos hsb]
      rw [hred]
      obtain ⟨l1, l2, hsplit, hgt, hnl⟩ := ih s
      set w := bestGo (cmpRows cols) s rest with hw
      have hws : ¬(cmpRows cols s w = Ordering.lt) := hnl s (List.mem_cons_self s rest)
      have hwb : cmpRows cols w b = Ordering.lt := by
        cases o : cmpRows cols w s
        · exact cmpRows_lt_trans o hsb
        · rw [cmpRows_congr_left o b]
          exact hsb
        · exact absurd (cmpRows_gt_iff.mp o) hws
      refine ⟨b :: l1, l2, ?_, ?_, ?_⟩
      · rw [List.cons_append, ← hsplit]
      · intro t ht
        rcases List.mem_cons.mp ht with rfl | ht
        · exact cmpRows_gt_iff.mpr hwb
        · exact hgt t ht
      · intro t ht
        rcases List.mem_cons.mp ht with rfl | ht
        · rw [cmpRows_gt_iff.mpr hwb]
          intro hc; cases hc
        · exact hnl t ht
    · have hred : bestGo (cmpRows cols) b (s :: rest) = bestGo (cmpRows cols) b rest := by
        rw [hstep, if_neg hsb]
      rw [hred]
      obtain ⟨l1, l2, hsplit, hgt, hnl⟩ := ih b
      set w := bestGo (cmpRows cols) b rest with hw
      cases l1 with
      | nil =>
        simp only [List.nil_append] at hsplit
        have hb : b = w := (List.cons_eq_cons.mp hsplit).1
        have hl2 : rest = l2 := (List.cons_eq_cons.mp hsplit).2
        refine ⟨[], s :: l2, ?_, ?_, ?_⟩
        · rw [List.nil_append, ← hb, ← hl2]
        · intro t ht
          cases ht
        · intro t ht
          rcases List.mem_cons.mp ht with rfl | ht
          · rw [← hb, cmpRows_self]
            intro hc; cases hc
          · rcases List.mem_cons.mp ht with rfl | ht
            · rw [← hb]
              exact hsb
            · exact hnl t (List.mem_cons_of_mem b ht)
      | cons b0 l1' =>
        rw [List.cons_append, List.cons_eq_cons] at hsplit
        obtain ⟨hb0, hrest⟩ := hsplit
        subst hb0
        have hbw : cmpRows cols b w = Ordering.gt := hgt b (List.mem_cons_self b l1')
        have hsw : cmpRows cols w s = Ordering.lt := by
          cases o : cmpRows cols s b
          · exact absurd o hsb
          · rw [← cmpRows_congr_right (cmpRows_eq_symm o) w]
            exact cmpRows_gt_iff.mp hbw
          · exact cmpRows_lt_trans (cmpRows_gt_iff.mp hbw) (cmpRows_gt_iff.mp o)
        refine ⟨b :: s :: l1', l2, ?_, ?_, ?_⟩
        · rw [List.cons_append, List.cons_append, hrest]
        · intro t ht
          rcases List.mem_cons.mp ht with rfl | ht
          · exact hbw
          · rcases List.mem_cons.mp ht with rfl | ht
            · exact cmpRows_gt_iff.mpr hsw
            · exact hgt t (List.mem_cons_of_mem b ht)
        · intro t ht
          rcases List.mem_cons.mp ht with rfl | ht
          · rw [hbw]
            intro hc; cases hc
          · rcases List.mem_cons.mp ht with rfl | ht
            · rw [cmpRows_gt_iff.mpr hsw]
              intro hc; cases hc
            · exact hnl t (List.mem_cons_of_mem b ht)

theorem exists_rank_one (k : String) (cols : List String) (base : List Row) (r0 : Row)
    (h : r0 ∈ base) :
    ∃ w, w ∈ partitionOf k base r0 ∧ rowNumber k cols base w = 1 := by
  have hr0 : r0 ∈ partitionOf k base r0 := mem_partitionOf.mpr ⟨h, rfl⟩
  cases hp : partitionOf k base r0 with
  | nil => rw [hp] at hr0; cases hr0
  | cons b rest =>
    obtain ⟨l1, l2, hsplit, hgt, hnl⟩ := bestGo_spec cols rest b
    set w := bestGo (cmpRows cols) b rest with hw
    have hwmem : w ∈ partitionOf k base r0 := by
      rw [hp, hsplit]
      exact List.mem_append_right l1 (List.mem_cons_self w l2)
    have hkey : getVal w k = getVal r0 k := (mem_partitionOf.mp hwmem).2
    have hpart : partitionOf k base w = partitionOf k base r0 := partitionOf_congr hkey
    refine ⟨w, hp ▸ hwmem, ?_⟩
    rw [rowNumber_parts, hpart, hp]
    have hc : (b :: rest).countP (fun s => decide (cmpRows cols s w = Ordering.lt)) = 0 := by
      refine List.countP_eq_zero.mpr ?_
      intro t ht
      simpa using hnl t (hsplit ▸ ht)
    have ht0 : tiesBefore cols w (b :: rest) = 0 := by
      rw [hsplit]
      exact tiesBefore_append_gt l1 l2 hgt
    omega

/-! Output characterization -/

theorem normalize_some (rows : List Row) (k sc tc : String) :
    normalize_cdc_latest rows k sc tc none
      = some ((((dedup_by [] rows).map (fun r =>
          withColumn r "_rn" (Val.int (rowNumber k ([sc, tc] ++ []) (dedup_by [] rows) r)))).filter
            (fun r => decide (getVal r "_rn" = Val.int 1))).map
              (fun r => dropColumn r "_rn")) := rfl

theorem mem_normalize_out (rows : List Row) (k sc tc : String) (x : Row) :
    x ∈ (normalize_cdc_latest rows k sc tc none).getD [] ↔
      ∃ r, r ∈ dedup_by [] rows ∧ rowNumber k [sc, tc] (dedup_by [] rows) r = 1
        ∧ x = emittedRow r := by
  have happ : ([sc, tc] ++ ([] : List String)) = [sc, tc] := List.append_nil _
  rw [normalize_some, Option.getD_some]
  constructor
  · intro hx
    rcases List.mem_map.mp hx with ⟨y, hy, rfl⟩
    rcases List.mem_filter.mp hy with ⟨hy2, hcond⟩
    rcases List.mem_map.mp hy2 with ⟨r, hr, rfl⟩
    have hcond' : getVal (withColumn r "_rn"
        (Val.int (rowNumber k ([sc, tc] ++ []) (dedup_by [] rows) r))) "_rn" = Val.int 1 :=
      of_decide_eq_true hcond
    rw [getVal_withColumn_self] at hcond'
    have hrank : rowNumber k ([sc, tc] ++ []) (dedup_by [] rows) r = 1 := by
      have h2 : (rowNumber k ([sc, tc] ++ []) (dedup_by [] rows) r : Int) = 1 := by
        injection hcond'
      exact_mod_cast h2
    refine ⟨r, hr, by rw [← happ]; exact hrank, ?_⟩
    unfold emittedRow
    rw [hrank]
    norm_num
  · rintro ⟨r, hr, hrank, rfl⟩
    rw [← happ] at hrank
    apply List.mem_map.mpr
    refine ⟨withColumn r "_rn" (Val.int (rowNumber k ([sc, tc] ++ []) (dedup_by [] rows) r)), ?_, ?_⟩
    · apply List.mem_filter.mpr
      refine ⟨List.mem_map.mpr ⟨r, hr, rfl⟩, ?_⟩
      apply decide_eq_true
      rw [getVal_withColumn_self, hrank]
      norm_num
    · unfold emittedRow
      rw [hrank]
      norm_num

theorem nodup_out_keys (rows : List Row) (k sc tc : String) (hk : ¬(k = "_rn")) :
    (((normalize_cdc_latest rows k sc tc none).getD []).map (fun x => getVal x k)).Nodup := by
  rw [normalize_some, Option.getD_some]
  have hQ : (dedup_by [] rows).Pairwise (fun r r' =>
      rowNumber k ([sc, tc] ++ []) (dedup_by [] rows) r = 1 →
      rowNumber k ([sc, tc] ++ []) (dedup_by [] rows) r' = 1 →
        ¬(getVal r k = getVal r' k)) :=
    List.Pairwise.imp_of_mem
      (fun ha hb hne h1 h1' hkey => hne (rank_one_unique ha hb hkey h1 h1'))
      (nodup_dedup_nil rows)
  have hmapped : ((dedup_by [] rows).map (fun r =>
      withColumn r "_rn" (Val.int (rowNumber k ([sc, tc] ++ []) (dedup_by [] rows) r)))).Pairwise
      (fun x y => getVal x "_rn" = Val.int 1 → getVal y "_rn" = Val.int 1 →
        ¬(getVal (dropColumn x "_rn") k = getVal (dropColumn y "_rn") k)) := by
    rw [List.pairwise_map]
    refine hQ.imp ?_
    intro a b hab h1 h1'
    rw [getVal_withColumn_self] at h1 h1'
    have ha : rowNumber k ([sc, tc] ++ []) (dedup_by [] rows) a = 1 := by
      have : ((rowNumber k ([sc, tc] ++ []) (dedup_by [] rows) a : Int)) = 1 := by injection h1
      exact_mod_cast this
    have hb : rowNumber k ([sc, tc] ++ []) (dedup_by [] rows) b = 1 := by
      have : ((rowNumber k ([sc, tc] ++ []) (dedup_by [] rows) b : Int)) = 1 := by injection h1'
      exact_mod_cast this
    rw [getVal_dropColumn_ne _ _ _ hk, getVal_dropColumn_ne _ _ _ hk,
      getVal_withColumn_ne _ _ _ _ hk, getVal_withColumn_ne _ _ _ _ hk]
    exact hab ha hb
  have hfiltered := hmapped.filter (fun r => decide (getVal r "_rn" = Val.int 1))
  have hfinal : (((dedup_by [] rows).map (fun r =>
      withColumn r "_rn" (Val.int (rowNumber k ([sc, tc] ++ []) (dedup_by [] rows) r)))).filter
        (fun r => decide (getVal r "_rn" = Val.int 1))).Pairwise
      (fun x y => ¬(getVal (dropColumn x "_rn") k = getVal (dropColumn y "_rn") k)) := by
    refine List.Pairwise.imp_of_mem ?_ hfiltered
    intro a b ha hb hab
    have ha' : getVal a "_rn" = Val.int 1 := of_decide_eq_true (List.mem_filter.mp ha).2
    have hb' : getVal b "_rn" = Val.int 1 := of_decide_eq_true (List.mem_filter.mp hb).2
    exact hab ha' hb'
  rw [List.map_map]
  exact List.Pairwise.map _ (fun a b hab => hab) hfinal

theorem resolve_transfer (k sc tc : String) (l1 l2 : List Row)
    (hmem : ∀ y : Row, y ∈ l1 ↔ y ∈ l2) (hnt : NoOrderTies k [sc, tc] l1) :
    ∀ x, x ∈ (normalize_cdc_latest l1 k sc tc none).getD [] →
      x ∈ (normalize_cdc_latest l2 k sc tc none).getD [] := by
  intro x hx
  rw [mem_normalize_out] at hx ⊢
  obtain ⟨r, hr, h1, hxe⟩ := hx
  have hmem_base : ∀ y : Row, y ∈ dedup_by [] l1 ↔ y ∈ dedup_by [] l2 := by
    intro y
    rw [mem_dedup_nil, mem_dedup_nil, hmem]
  have hr2 : r ∈ dedup_by [] l2 := (hmem_base r).mp hr
  have hnt1 : ∀ s ∈ dedup_by [] l1, getVal s k = getVal r k →
      cmpRows [sc, tc] s r = Ordering.eq → s = r := by
    intro s hs hsk hse
    exact hnt s ((mem_dedup_nil l1 s).mp hs) r ((mem_dedup_nil l1 r).mp hr) hsk hse
  have hnt2 : ∀ s ∈ dedup_by [] l2, getVal s k = getVal r k →
      cmpRows [sc, tc] s r = Ordering.eq → s = r := by
    intro s hs hsk hse
    exact hnt1 s ((hmem_base s).mpr hs) hsk hse
  have hmax1 : ∀ s ∈ partitionOf k (dedup_by [] l1) r,
      ¬(cmpRows [sc, tc] s r = Ordering.lt) := rank_one_no_lt h1
  have hmax2 : ∀ s ∈ partitionOf k (dedup_by [] l2) r,
      ¬(cmpRows [sc, tc] s r = Ordering.lt) := by
    intro s hs
    rcases mem_partitionOf.mp hs with ⟨hsb, hsk⟩
    exact hmax1 s (mem_partitionOf.mpr ⟨(hmem_base s).mpr hsb, hsk⟩)
  exact ⟨r, hr2, rank_one_of_max hnt2 hmax2, hxe⟩

/-! Claim theorems -/

/-- C1: the claim says the resolution engine orders by `seq_num` desc,
`event_time` desc, then the configured tiebreaker columns desc, nulls
last. The code cannot do this: building the tiebreaker ordering
expressions invokes the nonexistent `Column` method `desc_null_lasts`
(the correct `desc_nulls_last` is used two lines above for seq/ts), so
every call with a non-empty tiebreaker list raises `AttributeError`
instead of applying the declared order. This theorem evaluates the
engine at such a failing input: a one-row batch with a populated
tiebreaker column `vip` yields no output. -/
theorem c1_tiebreaker_call_fails :
    normalize_cdc_latest [plainRow] "id" "seq_num" "event_time" (some ["vip"]) = none := rfl

/-- C9: a call with a non-empty tiebreaker list fails while building the
ordering expressions and produces no output; only calls with tiebreakers
absent or empty complete. -/
theorem c9_nonempty_tiebreakers_error (rows : List Row) (k sc tc : String)
    (tb : Option (List String)) :
    ((tb.getD []).isEmpty = false → normalize_cdc_latest rows k sc tc tb = none)
    ∧ ((tb.getD []).isEmpty = true → (normalize_cdc_latest rows k sc tc tb).isSome = true) := by
  constructor
  · intro h
    unfold normalize_cdc_latest
    rw [if_neg (by rw [h]; intro hc; cases hc)]
  · intro h
    unfold normalize_cdc_latest
    rw [if_pos h]
    rfl

theorem c9_witness :
    normalize_cdc_latest [plainRow] "id" "seq_num" "event_time" (some ["vip"]) = none
    ∧ (normalize_cdc_latest [plainRow] "id" "seq_num" "event_time" none).isSome = true :=
  ⟨(c9_nonempty_tiebreakers_error [plainRow] "id" "seq_num" "event_time" (some ["vip"])).1 rfl,
   (c9_nonempty_tiebreakers_error [plainRow] "id" "seq_num" "event_time" none).2 rfl⟩

/-- C6: the default deduplication removes exactly whole-row duplicates —
every input row stays present (membership preserved), no two equal rows
survive (the result is duplicate-free), and the operation is
idempotent. -/
theorem c6_dedup_whole_row_idempotent (l : List Row) :
    (dedup_by [] l).Nodup ∧ (∀ x : Row, x ∈ dedup_by [] l ↔ x ∈ l)
    ∧ dedup_by [] (dedup_by [] l) = dedup_by [] l :=
  ⟨nodup_dedup_nil l, fun x => mem_dedup_nil l x, dedup_nil_idem l⟩

/-- C5 counterexample: `[tieRow1, tieRow2]` is a batch of two distinct
rows sharing key, `seq_num` and `event_time`; injecting an exact
duplicate copy of `tieRow2` (already present) at the front of the batch
changes the resolved output — the winner among fully tied rows follows
row order, so the claim "adding exact duplicates never changes the
output" fails as stated. -/
theorem c5_counterexample :
    ¬(normalize_cdc_latest [tieRow2, tieRow1, tieRow2] "id" "seq_num" "event_time" none
      = normalize_cdc_latest [tieRow1, tieRow2] "id" "seq_num" "event_time" none) := by
  decide

/-- C5 amended: appending exact duplicate copies of rows already present
in the batch never changes the resolved output; only injecting a
duplicate ahead of rows fully tied with it can move the winner. -/
theorem c5_append_duplicates (rows extra : List Row) (k sc tc : String)
    (h : ∀ x ∈ extra, x ∈ rows) :
    normalize_cdc_latest (rows ++ extra) k sc tc none
      = normalize_cdc_latest rows k sc tc none := by
  have hbase := dedup_nil_append rows extra h
  rw [normalize_some, normalize_some, hbase]

theorem c5_witness :
    normalize_cdc_latest ([insRow, delRow] ++ [delRow]) "id" "seq_num" "event_time" none
      = normalize_cdc_latest [insRow, delRow] "id" "seq_num" "event_time" none :=
  c5_append_duplicates [insRow, delRow] [delRow] "id" "seq_num" "event_time" (by decide)

/-- C3: a rank-1 event is emitted whatever its `op` — there is no filter
on `op`, so a winning Delete event stays in the output as the latest
record for its key, with its `op` preserved. The witness instantiates
the spec's Delete-retention scenario. -/
theorem c3_delete_winner_emitted (rows : List Row) (k sc tc : String) (r : Row)
    (hr : r ∈ dedup_by [] rows)
    (h1 : rowNumber k [sc, tc] (dedup_by [] rows) r = 1) :
    emittedRow r ∈ (normalize_cdc_latest rows k sc tc none).getD []
    ∧ getVal (emittedRow r) "op" = getVal r "op" :=
  ⟨(mem_normalize_out rows k sc tc (emittedRow r)).mpr ⟨r, hr, h1, rfl⟩,
   getVal_emittedRow r "op" (by decide)⟩

theorem c3_witness :
    (emittedRow delRow
        ∈ (normalize_cdc_latest [insRow, delRow] "id" "seq_num" "event_time" none).getD []
      ∧ getVal (emittedRow delRow) "op" = getVal delRow "op")
    ∧ normalize_cdc_latest [insRow, delRow] "id" "seq_num" "event_time" none = some [delRow]
    ∧ getVal delRow "op" = Val.str "D" :=
  ⟨c3_delete_winner_emitted [insRow, delRow] "id" "seq_num" "event_time" delRow
      (by decide) (by decide),
   by decide, by decide⟩

/-- C4: a row with a null ordering value is not rejected — resolution
always succeeds on a tiebreaker-free call; within a key, a row with a
non-null `seq_num` outranks one whose `seq_num` is null, and among rows
tied on `seq_num` a non-null `event_time` outranks a null one; and in
the spec's concrete scenario (A: seq null, later time; B: seq 1,
earlier time) the resolved record is B. -/
theorem c4_nulls_sort_last :
    (∀ (rows : List Row) (k sc tc : String),
        (normalize_cdc_latest rows k sc tc none).isSome = true)
    ∧ (∀ (r s : Row) (sc tc : String), ¬(getVal r sc = Val.null) → getVal s sc = Val.null →
        cmpRows [sc, tc] r s = Ordering.lt)
    ∧ (∀ (r s : Row) (sc tc : String), getVal r sc = getVal s sc →
        ¬(getVal r tc = Val.null) → getVal s tc = Val.null →
        cmpRows [sc, tc] r s = Ordering.lt)
    ∧ normalize_cdc_latest [nullSeqRow, seqOneRow] "id" "seq_num" "event_time" none
        = some [seqOneRow] := by
  refine ⟨?_, ?_, ?_, by decide⟩
  · intro rows k sc tc
    rw [normalize_some]
    rfl
  · intro r s sc tc hr hs
    have hv : cmpVal (getVal r sc) (getVal s sc) = Ordering.lt := by
      rw [hs]
      cases hv : getVal r sc
      · exact absurd hv hr
      · rfl
      · rfl
    simp [cmpRows, hv]
  · intro r s sc tc he hr hs
    have hv : cmpVal (getVal r sc) (getVal s sc) = Ordering.eq := by
      rw [he, cmpVal_self]
    have hv2 : cmpVal (getVal r tc) (getVal s tc) = Ordering.lt := by
      rw [hs]
      cases hv2 : getVal r tc
      · exact absurd hv2 hr
      · rfl
      · rfl
    simp [cmpRows, hv, hv2]

theorem c4_witness :
    cmpRows ["seq_num", "event_time"] seqOneRow nullSeqRow = Ordering.lt
    ∧ cmpRows ["s", "t"] [("s", Val.int 1), ("t", Val.int 2)] [("s", Val.int 1), ("t", Val.null)]
        = Ordering.lt
    ∧ (normalize_cdc_latest [nullSeqRow] "id" "seq_num" "event_time" none).isSome = true :=
  ⟨c4_nulls_sort_last.2.1 seqOneRow nullSeqRow "seq_num" "event_time" (by decide) (by decide),
   c4_nulls_sort_last.2.2.1 [("s", Val.int 1), ("t", Val.int 2)] [("s", Val.int 1), ("t", Val.null)]
     "s" "t" (by decide) (by decide) (by decide),
   c4_nulls_sort_last.1 [nullSeqRow] "id" "seq_num" "event_time"⟩

/-- C10 counterexample: on an input row that already carries a `_rn`
column, `withColumn` overwrites it and the final `drop` removes it, so
the unique output record does not have exactly the columns of the input
row — the claim fails as stated for such batches. -/
theorem c10_counterexample :
    normalize_cdc_latest [rnRow] "id" "seq_num" "event_time" none
      = some [[("id", Val.int 1), ("seq_num", Val.int 1), ("event_time", Val.int 0)]]
    ∧ ¬(([("id", Val.int 1), ("seq_num", Val.int 1), ("event_time", Val.int 0)] : Row).map
          (fun p => p.1)
        = rnRow.map (fun p => p.1)) := by
  decide

/-- C10 amended: provided no input column is named `_rn`, every output
record is literally one of the input rows — the internal rank column is
added and dropped without trace, and the (pure) transform leaves the
input batch untouched. -/
theorem c10_output_rows_are_input_rows (rows : List Row) (k sc tc : String)
    (h : ∀ r ∈ rows, ∀ p ∈ r, ¬(p.1 = "_rn")) :
    ∀ x ∈ (normalize_cdc_latest rows k sc tc none).getD [], x ∈ rows := by
  intro x hx
  rw [mem_normalize_out] at hx
  obtain ⟨r, hr, h1, rfl⟩ := hx
  have hrows : r ∈ rows := (mem_dedup_nil rows r).mp hr
  rw [emittedRow_eq_self r (h r hrows)]
  exact hrows

theorem c10_witness : delRow ∈ [insRow, delRow] :=
  c10_output_rows_are_input_rows [insRow, delRow] "id" "seq_num" "event_time"
    (by decide) delRow (by decide)

/-- C2 counterexample: `[tieRow2, tieRow1]` is a permutation of
`[tieRow1, tieRow2]`, two distinct events tied on key and on every
ordering column; the comparator has no final fallback criterion, so the
resolved outputs differ as sets — permutation invariance fails as
stated. -/
theorem c2_counterexample :
    tieRow1 ∈ (normalize_cdc_latest [tieRow1, tieRow2] "id" "seq_num" "event_time" none).getD []
    ∧ ¬(tieRow1
        ∈ (normalize_cdc_latest [tieRow2, tieRow1] "id" "seq_num" "event_time" none).getD []) := by
  decide

/-- C2 amended: when no two distinct same-key events tie on every
ordering column, the resolved output is a pure function of the set of
input events — any permutation of the batch yields the same output
set. -/
theorem c2_determinism_no_ties (l1 l2 : List Row) (k sc tc : String)
    (hperm : l1.Perm l2) (hnt : NoOrderTies k [sc, tc] l1) :
    ∀ x : Row, x ∈ (normalize_cdc_latest l1 k sc tc none).getD []
      ↔ x ∈ (normalize_cdc_latest l2 k sc tc none).getD [] := by
  have hmem : ∀ y : Row, y ∈ l1 ↔ y ∈ l2 := fun y => hperm.mem_iff
  have hnt2 : NoOrderTies k [sc, tc] l2 := by
    intro r hr s hs hkk he
    exact hnt r ((hmem r).mpr hr) s ((hmem s).mpr hs) hkk he
  intro x
  exact ⟨resolve_transfer k sc tc l1 l2 hmem hnt x,
    resolve_transfer k sc tc l2 l1 (fun y => (hmem y).symm) hnt2 x⟩

theorem c2_witness :
    delRow ∈ (normalize_cdc_latest [insRow, delRow] "id" "seq_num" "event_time" none).getD []
    ↔ delRow ∈ (normalize_cdc_latest [delRow, insRow] "id" "seq_num" "event_time" none).getD [] :=
  c2_determinism_no_ties [insRow, delRow] [delRow, insRow] "id" "seq_num" "event_time"
    (by decide) (by unfold NoOrderTies; decide) delRow

/-- C7: when the key column is not the internal rank column name `_rn`,
the output carries exactly one record per distinct key — the output keys
are duplicate-free, a key value appears in the output exactly when it
appears in the input, the number of emitted records is bounded by the
number of distinct input key values, and every emitted record agrees
with a rank-1 (winning) input event on every column other than the
internal `_rn` (in particular on its payload, `op`, `seq_num` and
`event_time`). -/
theorem c7_one_record_per_key (rows : List Row) (k sc tc : String) (hk : ¬(k = "_rn")) :
    (((normalize_cdc_latest rows k sc tc none).getD []).map (fun x => getVal x k)).Nodup
    ∧ (∀ v : Val, (∃ x ∈ (normalize_cdc_latest rows k sc tc none).getD [], getVal x k = v)
        ↔ ∃ r ∈ rows, getVal r k = v)
    ∧ ((normalize_cdc_latest rows k sc tc none).getD []).length
        ≤ (dropDuplicates (fun v => v) (rows.map (fun r => getVal r k))).length
    ∧ (∀ x ∈ (normalize_cdc_latest rows k sc tc none).getD [],
        ∃ r ∈ rows, rowNumber k [sc, tc] (dedup_by [] rows) r = 1
          ∧ ∀ c, ¬(c = "_rn") → getVal x c = getVal r c) := by
  have hforward : ∀ x ∈ (normalize_cdc_latest rows k sc tc none).getD [],
      ∃ r ∈ rows, rowNumber k [sc, tc] (dedup_by [] rows) r = 1
        ∧ ∀ c, ¬(c = "_rn") → getVal x c = getVal r c := by
    intro x hx
    rw [mem_normalize_out] at hx
    obtain ⟨r, hr, h1, rfl⟩ := hx
    exact ⟨r, (mem_dedup_nil rows r).mp hr, h1, fun c hc => getVal_emittedRow r c hc⟩
  have hiff : ∀ v : Val,
      (∃ x ∈ (normalize_cdc_latest rows k sc tc none).getD [], getVal x k = v)
        ↔ ∃ r ∈ rows, getVal r k = v := by
    intro v
    constructor
    · rintro ⟨x, hx, rfl⟩
      obtain ⟨r, hr, _, hcols⟩ := hforward x hx
      exact ⟨r, hr, (hcols k hk).symm⟩
    · rintro ⟨r0, hr0, rfl⟩
      have hr0b : r0 ∈ dedup_by [] rows := (mem_dedup_nil rows r0).mpr hr0
      obtain ⟨w, hwp, hw1⟩ := exists_rank_one k [sc, tc] (dedup_by [] rows) r0 hr0b
      rcases mem_partitionOf.mp hwp with ⟨hwb, hwk⟩
      refine ⟨emittedRow w,
        (mem_normalize_out rows k sc tc (emittedRow w)).mpr ⟨w, hwb, hw1, rfl⟩, ?_⟩
      rw [getVal_emittedRow w k hk]
      exact hwk
  have hnodup := nodup_out_keys rows k sc tc hk
  refine ⟨hnodup, hiff, ?_, hforward⟩
  have hsub : ((normalize_cdc_latest rows k sc tc none).getD []).map (fun x => getVal x k)
      ⊆ dropDuplicates (fun v => v) (rows.map (fun r => getVal r k)) := by
    intro v hv
    rcases List.mem_map.mp hv with ⟨x, hx, rfl⟩
    obtain ⟨r, hr, _, hcols⟩ := hforward x hx
    unfold dropDuplicates
    rw [mem_dropDupAcc_id]
    refine ⟨?_, by simp⟩
    rw [hcols k hk]
    exact List.mem_map.mpr ⟨r, hr, rfl⟩
  have hlen := (hnodup.subperm hsub).length_le
  rw [List.length_map] at hlen
  exact hlen

theorem c7_witness :
    ((normalize_cdc_latest [insRow, delRow] "id" "seq_num" "event_time" none).getD []).length
      ≤ (dropDuplicates (fun v => v)
          ([insRow, delRow].map (fun r => getVal r "id"))).length :=
  (c7_one_record_per_key [insRow, delRow] "id" "seq_num" "event_time" (by decide)).2.2.1

/-! Text normalizer -/

theorem translate_head (c : Char) :
    translateList "áéíóúüñ".toList "aeiouun".toList [c] = [foldAccentChar c] := by
  by_cases h1 : c = 'á'
  · subst h1; rfl
  by_cases h2 : c = 'é'
  · subst h2; rfl
  by_cases h3 : c = 'í'
  · subst h3; rfl
  by_cases h4 : c = 'ó'
  · subst h4; rfl
  by_cases h5 : c = 'ú'
  · subst h5; rfl
  by_cases h6 : c = 'ü'
  · subst h6; rfl
  by_cases h7 : c = 'ñ'
  · subst h7; rfl
  have hsrc : "áéíóúüñ".toList = ['á', 'é', 'í', 'ó', 'ú', 'ü', 'ñ'] := rfl
  have b1 : (c == 'á') = false := beq_eq_false_iff_ne.mpr h1
  have b2 : (c == 'é') = false := beq_eq_false_iff_ne.mpr h2
  have b3 : (c == 'í') = false := beq_eq_false_iff_ne.mpr h3
  have b4 : (c == 'ó') = false := beq_eq_false_iff_ne.mpr h4
  have b5 : (c == 'ú') = false := beq_eq_false_iff_ne.mpr h5
  have b6 : (c == 'ü') = false := beq_eq_false_iff_ne.mpr h6
  have b7 : (c == 'ñ') = false := beq_eq_false_iff_ne.mpr h7
  unfold translateList foldAccentChar accentFoldMap
  rw [hsrc]
  simp [findPos, List.filterMap_cons, List.find?, b1, b2, b3, b4, b5, b6, b7,
    h1, h2, h3, h4, h5, h6, h7]

theorem translateList_cons (c : Char) (cs : List Char) :
    translateList "áéíóúüñ".toList "aeiouun".toList (c :: cs)
      = foldAccentChar c :: translateList "áéíóúüñ".toList "aeiouun".toList cs := by
  have hsplit : c :: cs = [c] ++ cs := rfl
  rw [hsplit]
  unfold translateList
  rw [List.filterMap_append]
  have hh := translate_head c
  unfold translateList at hh
  rw [hh]
  rfl

/-- C8 counterexample: the claim says leading and trailing *whitespace*
is trimmed, but Spark's `trim` strips only space characters: on the
input `"\tA"` the code returns `"\ta"` (tab kept) while the claimed
behavior yields `"a"`. -/
theorem c8_counterexample :
    ¬(normalize_ascii_lower "\tA" = normalize_text_claimed "\tA") := by
  decide

/-- C8 amended: the text normalizer trims leading and trailing space
characters (not all whitespace), lowercases, and folds the fixed
accented set via a static character map — the positional
`translate(src, dst)` of the code coincides with the direct
character-map formulation of the spec on every input; it is a pure
total function on strings. -/
theorem c8_normalize_text (s : String) :
    normalize_ascii_lower s = normalize_text_amended s := by
  unfold normalize_ascii_lower normalize_text_amended
  congr 1
  generalize (trimSpacesList s.toList).map lowerChar = cs
  induction cs with
  | nil => rfl
  | cons c cs ih =>
    rw [translateList_cons, List.map_cons, ih]
